import Mathlib

/-!
Verification of the recommendation engine (catalog ranking, popularity
scoring, cursor pagination, explanation strings).

The development shallowly embeds the Python sources:
  - `src/utils.py`   : `encode_cursor` / `decode_cursor` (URL-safe base64 of
    `"{product_id}|{offset}|{seed}"`), including a byte-level model of
    Python's `base64.urlsafe_b64encode` / `urlsafe_b64decode` and of `int()`
    parsing (optional sign followed by decimal digits; exotic `int()` inputs
    such as embedded underscores or surrounding whitespace are not modelled,
    no property below depends on them).
  - `src/model.py`   : `Recommender.fit` popularity computation (including
    the pandas index-alignment semantics of `purchase_counts * 2.0 +
    view_counts * 1.0`, where an item missing from one of the two count
    series produces NaN; NaN is modelled by `Option ℚ` with `none` = NaN),
    `recommend_for_product`, `_get_popular_fallback`, `_generate_reason`.
  - `src/app.py`     : the `/recommend` handler (cursor resolution, 404
    check, `next_cursor` emission).

Machine floats are embedded as exact rationals `ℚ`; strings are embedded as
their UTF-8 byte lists `List Nat` (UTF-8 byte order agrees with code-point
order, so Python string comparison is lexicographic byte comparison).
Python exceptions are embedded as `none` / explicit error constructors.
-/

/-! ### Byte-string helpers -/

/-- Lexicographic `≤` on byte strings, as Python compares `str` values
(code-point order, which equals byte order under UTF-8). -/
def idLeB : List Nat → List Nat → Bool
  | [], _ => true
  | _ :: _, [] => false
  | a :: as, b :: bs => if a < b then true else if a = b then idLeB as bs else false

/-- Strict lexicographic `<` on byte strings. -/
def idLtB : List Nat → List Nat → Bool
  | _, [] => false
  | [], _ :: _ => true
  | a :: as, b :: bs => if a < b then true else if a = b then idLtB as bs else false

/-! ### Base64 (URL-safe), modelling Python `base64.urlsafe_b64encode` and
`base64.urlsafe_b64decode`.  Encoding maps 3 bytes to 4 alphabet characters
plus `'='` padding.  Decoding (non-strict mode, as `b64decode` with
`validate=False`) ignores characters outside the alphabet, requires the
data length to be a valid multiple of 4 after padding, and rejects a
leftover of a single character. -/

/-- The URL-safe base64 alphabet. -/
def b64Chars : List Char :=
  "ABCDEFGHIJKLMNOPQRSTUVWXYZabcdefghijklmnopqrstuvwxyz0123456789-_".toList

/-- Character for a 6-bit group. -/
def sextetToChar (n : Nat) : Char := b64Chars.getD n 'A'

/-- 6-bit group for a character, `none` if outside the alphabet. -/
def charToSextet (c : Char) : Option Nat := b64Chars.findIdx? (fun d => d = c)

/-- A character the decoder keeps: alphabet or padding. -/
def isB64OrPad (c : Char) : Bool := (charToSextet c).isSome || c = '='

/-- Base64 data characters (no padding) of a byte list. -/
def b64EncodeData : List Nat → List Char
  | [] => []
  | [b1] => [sextetToChar (b1 / 4), sextetToChar (b1 % 4 * 16)]
  | [b1, b2] =>
      [sextetToChar (b1 / 4), sextetToChar (b1 % 4 * 16 + b2 / 16),
       sextetToChar (b2 % 16 * 4)]
  | b1 :: b2 :: b3 :: rest =>
      sextetToChar (b1 / 4) :: sextetToChar (b1 % 4 * 16 + b2 / 16) ::
      sextetToChar (b2 % 16 * 4 + b3 / 64) :: sextetToChar (b3 % 64) ::
      b64EncodeData rest

/-- Padding characters appended for a payload of `n` bytes. -/
def b64Pad (n : Nat) : List Char := List.replicate ((3 - n % 3) % 3) '='

/-- Python `base64.urlsafe_b64encode` over a byte list. -/
def b64Encode (bs : List Nat) : List Char := b64EncodeData bs ++ b64Pad bs.length

/-- Decode base64 data characters (padding already stripped):
4 characters to 3 bytes, a final group of 2 or 3 characters to 1 or 2
bytes, a leftover single character is invalid. -/
def b64DecodeData : List Char → Option (List Nat)
  | [] => some []
  | [c1, c2] =>
      match charToSextet c1, charToSextet c2 with
      | some s1, some s2 => some [s1 * 4 + s2 / 16]
      | _, _ => none
  | [c1, c2, c3] =>
      match charToSextet c1, charToSextet c2, charToSextet c3 with
      | some s1, some s2, some s3 =>
          some [s1 * 4 + s2 / 16, s2 % 16 * 16 + s3 / 4]
      | _, _, _ => none
  | c1 :: c2 :: c3 :: c4 :: rest =>
      match charToSextet c1, charToSextet c2, charToSextet c3,
            charToSextet c4, b64DecodeData rest with
      | some s1, some s2, some s3, some s4, some bs =>
          some ((s1 * 4 + s2 / 16) :: (s2 % 16 * 16 + s3 / 4) ::
                (s3 % 4 * 64 + s4) :: bs)
      | _, _, _, _, _ => none
  | [_] => none

/-- Python `base64.urlsafe_b64decode` (non-strict): ignore foreign
characters, split off the padding, check the padded length, decode.
The model demands canonical padding (data, then exactly the padding that
completes the last quad) and recognizes only the URL-safe alphabet.
CPython agrees with this on every encoder output and on every token a
theorem below applies it to, but its full failure boundary differs on
other tokens: `urlsafe_b64decode` only translates `'-'`/`'_'` before a
standard decode, so it also accepts `'+'`/`'/'` as data, and its
non-strict mode skips a `'='` occurring before two data characters of a
quad and discards data after a completed padding.  The theorems below
therefore only evaluate this decoder on encoder outputs and on specific
truncations of them, never quantify a failure condition over all
tokens. -/
def b64Decode (s : List Char) : Option (List Nat) :=
  let t := s.filter isB64OrPad
  let data := t.takeWhile (fun c => c ≠ '=')
  let pad := t.dropWhile (fun c => c ≠ '=')
  if pad.all (fun c => c = '=') && pad.length = (4 - data.length % 4) % 4 &&
      data.length % 4 ≠ 1 then
    b64DecodeData data
  else none

/-! ### Cursor codec (`src/utils.py`)

`encode_cursor` builds `f"{product_id}|{offset}|{seed}"` and base64-encodes
its bytes; `decode_cursor` base64-decodes, splits on `'|'`, demands exactly
three fields and integer second and third fields.  A raised
`ValueError("Invalid cursor format")` is modelled as `none`. -/

/-- The delimiter byte `'|'`. -/
def PIPE : Nat := 124

/-- Little-endian decimal digits, with `fuel` for termination. -/
def natDigitsAux : Nat → Nat → List Nat
  | 0, _ => []
  | fuel + 1, n => if n = 0 then [] else n % 10 :: natDigitsAux fuel (n / 10)

/-- Little-endian decimal digits of `n` (empty for 0). -/
def natDigits (n : Nat) : List Nat := natDigitsAux n n

/-- Bytes of Python `str(n)` for a natural `n`. -/
def natToBytes (n : Nat) : List Nat :=
  if n = 0 then [48] else (natDigits n).reverse.map (fun d => d + 48)

/-- Bytes of Python `str(i)` for an integer `i` (`45` is `'-'`). -/
def intToBytes (i : Int) : List Nat :=
  if i < 0 then 45 :: natToBytes i.natAbs else natToBytes i.toNat

/-- ASCII decimal digit test. -/
def isDigitByte (b : Nat) : Bool := 48 ≤ b && b ≤ 57

/-- Value of a big-endian ASCII digit string. -/
def digitsVal (bs : List Nat) : Nat := bs.foldl (fun acc b => acc * 10 + (b - 48)) 0

/-- Parse an unsigned decimal byte string, `none` when empty or non-digit. -/
def parseNatBytes (bs : List Nat) : Option Nat :=
  if !bs.isEmpty && bs.all isDigitByte then some (digitsVal bs) else none

/-- Python `int(bytes)` restricted to an optional `'-'`/`'+'` sign followed
by ASCII decimal digits (`45` = `'-'`, `43` = `'+'`).  Python additionally
strips surrounding whitespace, allows `'_'` separators between digits and
accepts non-ASCII Unicode decimal digits; the theorems below only apply
this parser to fields of encoder outputs and their truncations, which are
always of the modelled sign-and-ASCII-digits form. -/
def pyIntParse (bs : List Nat) : Option Int :=
  match bs with
  | [] => none
  | b :: rest =>
    if b = 45 then (parseNatBytes rest).map (fun n : Nat => -(n : Int))
    else if b = 43 then (parseNatBytes rest).map (fun n : Nat => (n : Int))
    else (parseNatBytes (b :: rest)).map (fun n : Nat => (n : Int))

/-- Python `str.split('|')` on bytes: `n` delimiters give `n + 1` fields,
empty fields included. -/
def splitOnPipe : List Nat → List (List Nat)
  | [] => [[]]
  | b :: rest =>
    if b = PIPE then [] :: splitOnPipe rest
    else
      match splitOnPipe rest with
      | [] => [[b]]
      | p :: ps => (b :: p) :: ps

/-- `encode_cursor` from `src/utils.py`: base64 of
`product_id ++ "|" ++ str(offset) ++ "|" ++ str(seed)`. -/
def encode_cursor (product_id : List Nat) (offset seed : Int) : List Char :=
  b64Encode (product_id ++ PIPE :: (intToBytes offset ++ PIPE :: intToBytes seed))

/-- `decode_cursor` from `src/utils.py`; `none` models the raised
`ValueError("Invalid cursor format")`.  The source's `.decode()` step
(UTF-8 text decoding of the payload, whose `UnicodeDecodeError` also maps
to the invalid-cursor error) is not modelled: identifiers are identified
with their UTF-8 byte lists throughout, so the model returns the payload
bytes directly.  The theorems below apply this function only to encoder
outputs and to specific truncations of them, where the omitted step cannot
fire for encodings of real (string) identifiers. -/
def decode_cursor (cursor : List Char) : Option (List Nat × Int × Int) :=
  match b64Decode cursor with
  | none => none
  | some decoded =>
    match splitOnPipe decoded with
    | [p0, p1, p2] =>
      match pyIntParse p1, pyIntParse p2 with
      | some o, some s => some (p0, o, s)
      | _, _ => none
    | _ => none

/-! ### Data model (`src/model.py`) -/

/-- A catalog row: identifier, brand, category and the unit-normalized
feature vector produced offline by `ProductVectorizer` (the vectorizer
itself is out of scope; vectors enter the state precomputed). -/
structure Product where
  product_id : List Nat
  brand : List Nat
  category : List Nat
  vector : List ℚ
deriving DecidableEq, Inhabited

/-- One returned recommendation: the dict
`{'product_id': ..., 'score': round(score, 3), 'reason': ...}`. -/
structure RecEntry where
  product_id : List Nat
  score : ℚ
  reason : String
deriving DecidableEq

/-- The fitted `Recommender` state used while serving: catalog rows in
order, and the `popularity_scores` dict as an association list. -/
structure Recommender where
  catalog : List Product
  popularity : List (List Nat × ℚ)

/-- `self.popularity_scores.get(pid, 0.0)`. -/
def popGet (pop : List (List Nat × ℚ)) (pid : List Nat) : ℚ :=
  match pop.find? (fun e => e.1 = pid) with
  | some e => e.2
  | none => 0

/-- `np.dot` on equal-length vectors. -/
def dot : List ℚ → List ℚ → ℚ
  | a :: as, b :: bs => a * b + dot as bs
  | _, _ => 0

/-- Floor of a rational as an integer (`Int` division of numerator by
denominator is Euclidean, hence floor for a positive denominator). -/
def ratFloor (q : ℚ) : Int := q.num / (q.den : Int)

/-- Python `round(x, 3)`.  Python rounds floats half-to-even in binary;
every score this system rounds lies in `[0, 1]` and no property below
depends on the direction taken at exact half-thousandths, so the model
rounds half up. -/
def round3 (q : ℚ) : ℚ := (ratFloor (q * 1000 + 1 / 2) : ℚ) / 1000

/-- Python `" & ".join`. -/
def joinAmp : List String → String
  | [] => ""
  | [s] => s
  | s :: rest => s ++ " & " ++ joinAmp rest

/-- `Recommender._generate_reason`, translated clause by clause. -/
def generateReason (content_sim popularity : ℚ) (query_product candidate_product : Product) :
    String :=
  let reasons : List String := []
  let reasons :=
    if content_sim ≥ 6 / 10 then reasons ++ ["strong content match"]
    else if content_sim ≥ 3 / 10 then reasons ++ ["moderate text similarity"]
    else reasons
  let reasons :=
    if query_product.brand = candidate_product.brand then reasons ++ ["same brand"] else reasons
  let reasons :=
    if query_product.category = candidate_product.category then reasons ++ ["same category"]
    else reasons
  let reasons :=
    if popularity ≥ 7 / 10 then reasons ++ ["popular item"]
    else if popularity ≥ 4 / 10 then reasons ++ ["moderate popularity"]
    else reasons
  let reasons :=
    if reasons = [] then
      if content_sim > 0 then ["low content similarity"] else ["popular fallback"]
    else reasons
  if reasons = [] then "general recommendation" else joinAmp reasons

/-- Specification-side restatement of the Explainer contract (spec section
4.4), written from the spec text for the refinement proof against
`generateReason`: evaluate the predicates in fixed priority order, collect
every label that fires, join with `" & "`, and fall back to
`"low content similarity"` / `"popular fallback"` when none fires. -/
def reasonSpec (contentSim popularity : ℚ) (q c : Product) : String :=
  let labels : List String :=
    (if contentSim ≥ 6 / 10 then ["strong content match"]
     else if contentSim ≥ 3 / 10 then ["moderate text similarity"]
     else []) ++
    (if q.brand = c.brand then ["same brand"] else []) ++
    (if q.category = c.category then ["same category"] else []) ++
    (if popularity ≥ 7 / 10 then ["popular item"]
     else if popularity ≥ 4 / 10 then ["moderate popularity"]
     else [])
  if labels = [] then
    if contentSim > 0 then "low content similarity" else "popular fallback"
  else joinAmp labels

/-- `self.product_id_to_idx`: the fit loop writes `id -> idx` for every
row in order, so a duplicated identifier keeps its last index; lookup of an
absent identifier is `none`. -/
def idToIdx (cat : List Product) (pid : List Nat) : Option Nat :=
  ((cat.enum.filter (fun e => e.2.product_id = pid)).map (fun e => e.1)).getLast?

/-- A candidate with its content similarity, popularity and combined score
(`combined_scores = alpha * content_sims + (1 - alpha) * popularity_scores`). -/
structure Scored where
  prod : Product
  sim : ℚ
  pop : ℚ
  combined : ℚ
deriving DecidableEq

/-- `candidate_indices = [i for i in range(len(catalog)) if i != query_idx]`,
mapped back to rows. -/
def candidateProducts (cat : List Product) (qIdx : Nat) : List Product :=
  (cat.enum.filter (fun e => e.1 ≠ qIdx)).map (fun e => e.2)

/-- Score one candidate for a query product. -/
def mkScored (r : Recommender) (q : Product) (alpha : ℚ) (p : Product) : Scored :=
  let s := dot q.vector p.vector
  let pp := popGet r.popularity p.product_id
  ⟨p, s, pp, alpha * s + (1 - alpha) * pp⟩

/-- The comparison `sort_keys[i] <= sort_keys[j]` used by the sort, where
`sort_keys[i] = (-combined_scores[i], candidate_ids[i])`: ascending in the
negated score (so descending in the score), then ascending identifier. -/
def candLE (a b : Scored) : Prop :=
  b.combined < a.combined ∨
    (a.combined = b.combined ∧ idLeB a.prod.product_id b.prod.product_id = true)

instance : DecidableRel candLE := fun a b => by unfold candLE; exact inferInstance

/-- The full deterministic ordering the code computes with
`sorted(range(...), key=lambda i: sort_keys[i])`.  Python's sort and
insertion sort are both stable for the same total preorder, so they return
the same list.  `np.random.seed(seed)` is called by the source immediately
before sorting but the sort never consults the generator, so the ranking
takes no seed. -/
def rankedCandidates (r : Recommender) (qIdx : Nat) (alpha : ℚ) : List Scored :=
  let q := r.catalog.getD qIdx default
  List.insertionSort candLE ((candidateProducts r.catalog qIdx).map (mkScored r q alpha))

/-- The key comparison of `_get_popular_fallback`:
`key=lambda x: (-x[1], x[0])` on `(product_id, popularity)` pairs. -/
def pairLE (a b : List Nat × ℚ) : Prop :=
  b.2 < a.2 ∨ (a.2 = b.2 ∧ idLeB a.1 b.1 = true)

instance : DecidableRel pairLE := fun a b => by unfold pairLE; exact inferInstance

/-- Python index clamping for a slice bound on a list of length `n`. -/
def pyIndexClamp (n : Nat) (i : Int) : Nat :=
  if i < 0 then ((n : Int) + i).toNat else min i.toNat n

/-- Python `l[a:b]` (step 1), with negative-index semantics. -/
def pySlice {α : Type} (l : List α) (a b : Int) : List α :=
  (l.take (pyIndexClamp l.length b)).drop (pyIndexClamp l.length a)

/-- Build the returned dict for one ranked candidate. -/
def toEntry (r : Recommender) (q : Product) (sc : Scored) : RecEntry :=
  { product_id := sc.prod.product_id, score := round3 sc.combined,
    reason := generateReason sc.sim sc.pop q sc.prod }

/-- `Recommender._get_popular_fallback`: rank the whole catalog by
`(-popularity, product_id)`, slice, and label every row
`'popular fallback'`. -/
def popularFallback (r : Recommender) (k : Nat) (offset : Int) : List RecEntry :=
  let product_scores := r.catalog.map (fun p => (p.product_id, popGet r.popularity p.product_id))
  let sorted := List.insertionSort pairLE product_scores
  let paginated := pySlice sorted offset (offset + (k : Int))
  paginated.map (fun e => { product_id := e.1, score := round3 e.2,
                            reason := "popular fallback" })

/-- `Recommender.recommend_for_product`.  The `seed` argument is accepted
(the source feeds it to `np.random.seed`) but the computation never reads
the generator; `diversify` is likewise accepted and unused in the source
and omitted here.  Returns `(recommendations, total_available)`. -/
def recommend_for_product (r : Recommender) (product_id : List Nat) (k : Nat) (alpha : ℚ)
    (offset : Int) (seed : Int) : List RecEntry × Nat :=
  match idToIdx r.catalog product_id with
  | none => (popularFallback r k offset, r.catalog.length)
  | some qIdx =>
    let q := r.catalog.getD qIdx default
    let sorted := rankedCandidates r qIdx alpha
    let total_available := sorted.length
    let paginated := pySlice sorted offset (offset + (k : Int))
    (paginated.map (toEntry r q), total_available)

/-- The unsliced list of entries underlying every page of
`recommend_for_product` (both the known-item and the fallback branch). -/
def allEntries (r : Recommender) (product_id : List Nat) (alpha : ℚ) : List RecEntry :=
  match idToIdx r.catalog product_id with
  | none =>
    (List.insertionSort pairLE
        (r.catalog.map (fun p => (p.product_id, popGet r.popularity p.product_id)))).map
      (fun e => { product_id := e.1, score := round3 e.2, reason := "popular fallback" })
  | some qIdx =>
    let q := r.catalog.getD qIdx default
    (rankedCandidates r qIdx alpha).map (toEntry r q)

/-! ### HTTP orchestrator (`src/app.py`, endpoint `/recommend`) -/

/-- Outcome of the `/recommend` handler: a 200 body (restricted to the
fields the claims speak about), the 404 not-found payload, or the 400
invalid-cursor rejection. -/
inductive ApiResponse where
  | ok (offset : Int) (total_available : Nat) (items : List RecEntry)
      (next_cursor : Option (List Char))
  | notFound
  | invalidCursor
deriving DecidableEq

/-- The `/recommend` handler: resolve the cursor (default offset 0, seed 0;
reject an undecodable cursor or one bound to a different product), 404 for
an identifier absent from the catalog, otherwise compute the page and emit
`next_cursor = encode_cursor(product_id, offset + k, seed)` iff
`offset + k < total_available`. -/
def recommendHandler (r : Recommender) (product_id : List Nat) (k : Nat) (alpha : ℚ)
    (cursor : Option (List Char)) : ApiResponse :=
  let resolved : Option (Int × Int) :=
    match cursor with
    | none => some (0, 0)
    | some c =>
      match decode_cursor c with
      | none => none
      | some (decoded_pid, decoded_offset, decoded_seed) =>
        if decoded_pid = product_id then some (decoded_offset, decoded_seed) else none
  match resolved with
  | none => ApiResponse.invalidCursor
  | some (offset, seed) =>
    if r.catalog.all (fun p => p.product_id ≠ product_id) then ApiResponse.notFound
    else
      let res := recommend_for_product r product_id k alpha offset seed
      let next_cursor :=
        if offset + (k : Int) < (res.2 : Int) then
          some (encode_cursor product_id (offset + (k : Int)) seed)
        else none
      ApiResponse.ok offset res.2 res.1 next_cursor

/-! ### Popularity fitting (`Recommender.fit`, lines 43-64 of
`src/model.py`)

The source computes `purchase_counts * 2.0 + view_counts * 1.0` on two
pandas `value_counts` series.  Series addition aligns on the union of the
two indices and fills a key missing from either side with NaN, so an item
with only purchases or only views gets a NaN total.  `Series.max()` skips
NaN, division keeps NaN, `to_dict` keeps NaN entries, and the back-fill
loop skips keys already present.  NaN is modelled as `none` in
`Option ℚ`. -/

/-- Interaction event kinds (`'purchase'`, `'view'`, anything else). -/
inductive Event where
  | purchase
  | view
  | other
deriving DecidableEq

/-- One interaction row (only the columns `fit` reads). -/
structure Interaction where
  product_id : List Nat
  event : Event

/-- Occurrences of `x` in `l` (one bucket of `value_counts`). -/
def countOcc (x : List Nat) (l : List (List Nat)) : Nat :=
  (l.filter (fun y => y = x)).length

/-- The distinct keys of a list (order of the result is irrelevant to every
use: it only determines association-list ordering, never values). -/
def uniqueKeys : List (List Nat) → List (List Nat)
  | [] => []
  | x :: rest => let u := uniqueKeys rest; if x ∈ u then u else x :: u

/-- The `popularity_scores` dict built by `Recommender.fit`:
`none` values model NaN entries produced by pandas index alignment. -/
def fitPopularity (catalogIds : List (List Nat)) (interactions : List Interaction) :
    List (List Nat × Option ℚ) :=
  let purchases := (interactions.filter (fun i => i.event = Event.purchase)).map
    Interaction.product_id
  let views := (interactions.filter (fun i => i.event = Event.view)).map
    Interaction.product_id
  let pKeys := uniqueKeys purchases
  let vKeys := uniqueKeys views
  let allKeys := uniqueKeys (pKeys ++ vKeys)
  let total : List (List Nat × Option ℚ) := allKeys.map (fun key =>
    (key, if key ∈ pKeys ∧ key ∈ vKeys then
            some (2 * (countOcc key purchases : ℚ) + (countOcc key views : ℚ))
          else none))
  let maxVal : Option ℚ := total.foldl (fun acc e =>
    match e.2, acc with
    | some v, some m => some (max m v)
    | some v, none => some v
    | none, a => a) none
  let normalized : List (List Nat × Option ℚ) :=
    match maxVal with
    | some m => if 0 < m then total.map (fun e => (e.1, e.2.map (fun v => v / m))) else []
    | none => []
  catalogIds.foldl (fun acc pid =>
    if acc.any (fun e => e.1 = pid) then acc else acc ++ [(pid, some 0)]) normalized

/-! ### A small concrete state for instantiating the theorems -/

/-- Sample catalog row `A`: identifier byte 65, unit vector `(1, 0)`. -/
def sampleA : Product := ⟨[65], [98], [99], [1, 0]⟩

/-- Sample catalog row `B`: identifier byte 66, unit vector `(0, 1)`. -/
def sampleB : Product := ⟨[66], [98], [100], [0, 1]⟩

/-- Sample fitted state: two products, popularity `1/2` and `1`. -/
def sampleRec : Recommender := ⟨[sampleA, sampleB], [([65], 1 / 2), ([66], 1)]⟩

/-! ### Lemmas: lexicographic identifier order -/

theorem idLeB_refl (a : List Nat) : idLeB a a = true := by
  induction a with
  | nil => rfl
  | cons x xs ih => simp [idLeB, ih]

theorem idLeB_total (a b : List Nat) : idLeB a b = true ∨ idLeB b a = true := by
  induction a generalizing b with
  | nil => left; rfl
  | cons x xs ih =>
    cases b with
    | nil => right; rfl
    | cons y ys =>
      by_cases h : x < y
      · left; simp [idLeB, h]
      · by_cases h2 : x = y
        · subst h2
          rcases ih ys with h3 | h3
          · left; simp [idLeB, h, h3]
          · right; simp [idLeB, h, h3]
        · right
          have hy : y < x := by omega
          simp [idLeB, hy]

theorem idLeB_trans {a b c : List Nat} (h1 : idLeB a b = true) (h2 : idLeB b c = true) :
    idLeB a c = true := by
  induction a generalizing b c with
  | nil => rfl
  | cons x xs ih =>
    cases b with
    | nil => simp [idLeB] at h1
    | cons y ys =>
      cases c with
      | nil => simp [idLeB] at h2
      | cons z zs =>
        simp only [idLeB] at h1 h2 ⊢
        by_cases hxy : x < y
        · by_cases hyz : y < z
          · simp [show x < z by omega]
          · by_cases hyz2 : y = z
            · subst hyz2; simp [hxy]
            · simp [hyz, hyz2] at h2
        · by_cases hxy2 : x = y
          · subst hxy2
            by_cases hyz : x < z
            · simp [hyz]
            · by_cases hyz2 : x = z
              · subst hyz2
                simp [hxy] at h1 h2 ⊢
                exact ih h1 h2
              · simp [hyz, hyz2] at h2
          · simp [hxy, hxy2] at h1

theorem idLeB_antisymm {a b : List Nat} (h1 : idLeB a b = true) (h2 : idLeB b a = true) :
    a = b := by
  induction a generalizing b with
  | nil =>
    cases b with
    | nil => rfl
    | cons y ys => simp [idLeB] at h2
  | cons x xs ih =>
    cases b with
    | nil => simp [idLeB] at h1
    | cons y ys =>
      simp only [idLeB] at h1 h2
      by_cases hxy : x < y
      · simp [show ¬y < x by omega, show y ≠ x by omega] at h2
      · by_cases hxy2 : x = y
        · subst hxy2
          simp [hxy] at h1 h2
          exact congrArg (x :: ·) (ih h1 h2)
        · simp [hxy, hxy2] at h1

theorem idLtB_of_idLeB_ne {a b : List Nat} (h1 : idLeB a b = true) (h2 : a ≠ b) :
    idLtB a b = true := by
  induction a generalizing b with
  | nil =>
    cases b with
    | nil => exact absurd rfl h2
    | cons y ys => rfl
  | cons x xs ih =>
    cases b with
    | nil => simp [idLeB] at h1
    | cons y ys =>
      simp only [idLeB] at h1
      simp only [idLtB]
      by_cases hxy : x < y
      · simp [hxy]
      · by_cases hxy2 : x = y
        · subst hxy2
          simp [hxy] at h1 ⊢
          exact ih h1 (by intro hc; exact h2 (by rw [hc]))
        · simp [hxy, hxy2] at h1

/-! ### Lemmas: base64 round trip -/

theorem charToSextet_sextetToChar : ∀ n < 64, charToSextet (sextetToChar n) = some n := by
  decide

theorem sextetToChar_good : ∀ n < 64, isB64OrPad (sextetToChar n) = true ∧ sextetToChar n ≠ '=' := by
  decide

theorem b64EncodeData_chars {bs : List Nat} (h : ∀ b ∈ bs, b < 256) :
    ∀ c ∈ b64EncodeData bs, isB64OrPad c = true ∧ c ≠ '=' := by
  induction bs using b64EncodeData.induct with
  | case1 => intro c hc; simp [b64EncodeData] at hc
  | case2 b1 =>
    have hb1 : b1 < 256 := h b1 (by simp)
    intro c hc
    simp [b64EncodeData] at hc
    rcases hc with rfl | rfl
    · exact sextetToChar_good _ (by omega)
    · exact sextetToChar_good _ (by omega)
  | case3 b1 b2 =>
    have hb1 : b1 < 256 := h b1 (by simp)
    have hb2 : b2 < 256 := h b2 (by simp)
    intro c hc
    simp [b64EncodeData] at hc
    rcases hc with rfl | rfl | rfl
    · exact sextetToChar_good _ (by omega)
    · exact sextetToChar_good _ (by omega)
    · exact sextetToChar_good _ (by omega)
  | case4 b1 b2 b3 rest ih =>
    have hb1 : b1 < 256 := h b1 (by simp)
    have hb2 : b2 < 256 := h b2 (by simp)
    have hb3 : b3 < 256 := h b3 (by simp)
    intro c hc
    simp only [b64EncodeData, List.mem_cons] at hc
    rcases hc with rfl | rfl | rfl | rfl | hc
    · exact sextetToChar_good _ (by omega)
    · exact sextetToChar_good _ (by omega)
    · exact sextetToChar_good _ (by omega)
    · exact sextetToChar_good _ (by omega)
    · exact ih (fun b hb => h b (by simp [hb])) c hc

theorem b64DecodeData_b64EncodeData {bs : List Nat} (h : ∀ b ∈ bs, b < 256) :
    b64DecodeData (b64EncodeData bs) = some bs := by
  induction bs using b64EncodeData.induct with
  | case1 => rfl
  | case2 b1 =>
    have hb1 : b1 < 256 := h b1 (by simp)
    have e1 := charToSextet_sextetToChar (b1 / 4) (by omega)
    have e2 := charToSextet_sextetToChar (b1 % 4 * 16) (by omega)
    simp [b64EncodeData, b64DecodeData, e1, e2]
    omega
  | case3 b1 b2 =>
    have hb1 : b1 < 256 := h b1 (by simp)
    have hb2 : b2 < 256 := h b2 (by simp)
    have e1 := charToSextet_sextetToChar (b1 / 4) (by omega)
    have e2 := charToSextet_sextetToChar (b1 % 4 * 16 + b2 / 16) (by omega)
    have e3 := charToSextet_sextetToChar (b2 % 16 * 4) (by omega)
    simp [b64EncodeData, b64DecodeData, e1, e2, e3]
    constructor <;> omega
  | case4 b1 b2 b3 rest ih =>
    have hb1 : b1 < 256 := h b1 (by simp)
    have hb2 : b2 < 256 := h b2 (by simp)
    have hb3 : b3 < 256 := h b3 (by simp)
    have e1 := charToSextet_sextetToChar (b1 / 4) (by omega)
    have e2 := charToSextet_sextetToChar (b1 % 4 * 16 + b2 / 16) (by omega)
    have e3 := charToSextet_sextetToChar (b2 % 16 * 4 + b3 / 64) (by omega)
    have e4 := charToSextet_sextetToChar (b3 % 64) (by omega)
    have ihr := ih (fun b hb => h b (by simp [hb]))
    simp [b64EncodeData, b64DecodeData, e1, e2, e3, e4, ihr]
    refine ⟨by omega, by omega, by omega⟩

theorem b64EncodeData_length (bs : List Nat) :
    bs.length % 3 = 0 ∧ (b64EncodeData bs).length % 4 = 0 ∨
    bs.length % 3 = 1 ∧ (b64EncodeData bs).length % 4 = 2 ∨
    bs.length % 3 = 2 ∧ (b64EncodeData bs).length % 4 = 3 := by
  induction bs using b64EncodeData.induct with
  | case1 => simp [b64EncodeData]
  | case2 b1 => simp [b64EncodeData]
  | case3 b1 b2 => simp [b64EncodeData]
  | case4 b1 b2 b3 rest ih => simp [b64EncodeData] at ih ⊢; omega

theorem takeWhile_append_all {α : Type} (p : α → Bool) {l1 : List α} (l2 : List α)
    (h : ∀ a ∈ l1, p a = true) : (l1 ++ l2).takeWhile p = l1 ++ l2.takeWhile p := by
  induction l1 with
  | nil => rfl
  | cons x xs ih =>
    simp [List.takeWhile_cons, h x (by simp), ih (fun a ha => h a (by simp [ha]))]

theorem dropWhile_append_all {α : Type} (p : α → Bool) {l1 : List α} (l2 : List α)
    (h : ∀ a ∈ l1, p a = true) : (l1 ++ l2).dropWhile p = l2.dropWhile p := by
  induction l1 with
  | nil => rfl
  | cons x xs ih =>
    simp only [List.cons_append, List.dropWhile_cons, h x (by simp)]
    exact ih (fun a ha => h a (by simp [ha]))

theorem b64Decode_b64Encode {bs : List Nat} (h : ∀ b ∈ bs, b < 256) :
    b64Decode (b64Encode bs) = some bs := by
  have hchars := b64EncodeData_chars h
  have hfilter : (b64Encode bs).filter isB64OrPad = b64Encode bs := by
    refine List.filter_eq_self.mpr ?_
    intro c hc
    rcases List.mem_append.mp hc with hc1 | hc2
    · exact (hchars c hc1).1
    · have : c = '=' := List.eq_of_mem_replicate hc2
      subst this; rfl
  have hpadne : ∀ c ∈ b64Pad bs.length, (fun c => decide (c ≠ '=')) c ≠ true := by
    intro c hc
    have : c = '=' := List.eq_of_mem_replicate hc
    subst this; simp
  have htake : (b64Encode bs).takeWhile (fun c => c ≠ '=') = b64EncodeData bs := by
    unfold b64Encode
    rw [takeWhile_append_all _ _ (fun a ha => by simp [(hchars a ha).2])]
    cases hn : b64Pad bs.length with
    | nil => simp
    | cons c cs =>
      have hcmem : c ∈ b64Pad bs.length := by rw [hn]; exact List.mem_cons_self c cs
      have hc : c = '=' := List.eq_of_mem_replicate (by simpa [b64Pad] using hcmem)
      subst hc
      simp [List.takeWhile_cons]
  have hdrop : (b64Encode bs).dropWhile (fun c => c ≠ '=') = b64Pad bs.length := by
    unfold b64Encode
    rw [dropWhile_append_all _ _ (fun a ha => by simp [(hchars a ha).2])]
    cases hn : b64Pad bs.length with
    | nil => simp
    | cons c cs =>
      have hcmem : c ∈ b64Pad bs.length := by rw [hn]; exact List.mem_cons_self c cs
      have hc : c = '=' := List.eq_of_mem_replicate (by simpa [b64Pad] using hcmem)
      subst hc
      simp [List.dropWhile_cons]
  unfold b64Decode
  simp only [hfilter, htake, hdrop]
  have hlen := b64EncodeData_length bs
  have hpadlen : (b64Pad bs.length).length = (3 - bs.length % 3) % 3 := by
    simp [b64Pad]
  have hcond : ((b64Pad bs.length).all (fun c => c = '=') &&
      (b64Pad bs.length).length = (4 - (b64EncodeData bs).length % 4) % 4 &&
      (b64EncodeData bs).length % 4 ≠ 1) = true := by
    have hall : (b64Pad bs.length).all (fun c => c = '=') = true := by
      refine List.all_eq_true.mpr ?_
      intro c hc
      have : c = '=' := List.eq_of_mem_replicate hc
      subst this; simp
    rw [hall]
    simp only [Bool.true_and]
    rw [hpadlen]
    rcases hlen with ⟨h3, h4⟩ | ⟨h3, h4⟩ | ⟨h3, h4⟩ <;> rw [h3, h4] <;> simp
  rw [if_pos (by exact_mod_cast hcond)]
  exact b64DecodeData_b64EncodeData h

/-! ### Lemmas: decimal printing and parsing -/

theorem digitsVal_append_digit (xs : List Nat) (d : Nat) :
    digitsVal (xs ++ [d]) = digitsVal xs * 10 + (d - 48) := by
  simp [digitsVal, List.foldl_append]

theorem natDigitsAux_spec :
    ∀ fuel n, n ≤ fuel →
      digitsVal ((natDigitsAux fuel n).reverse.map (fun d => d + 48)) = n ∧
      (∀ d ∈ natDigitsAux fuel n, d < 10) ∧ (n ≠ 0 → natDigitsAux fuel n ≠ []) := by
  intro fuel
  induction fuel with
  | zero =>
    intro n hn
    have : n = 0 := by omega
    subst this
    exact ⟨rfl, by simp [natDigitsAux], fun h => absurd rfl h⟩
  | succ fuel ih =>
    intro n hn
    by_cases h0 : n = 0
    · subst h0
      exact ⟨rfl, by simp [natDigitsAux], fun h => absurd rfl h⟩
    · have hle : n / 10 ≤ fuel := by
        have : n / 10 < n := Nat.div_lt_self (by omega) (by omega)
        omega
      obtain ⟨hval, hdig, _⟩ := ih (n / 10) hle
      have hstep : natDigitsAux (fuel + 1) n = n % 10 :: natDigitsAux fuel (n / 10) := by
        simp [natDigitsAux, h0]
      refine ⟨?_, ?_, by simp [hstep]⟩
      · rw [hstep]
        simp only [List.reverse_cons, List.map_append, List.map_cons, List.map_nil]
        rw [digitsVal_append_digit, hval]
        omega
      · intro d hd
        rw [hstep] at hd
        rcases List.mem_cons.mp hd with rfl | hd2
        · omega
        · exact hdig d hd2

theorem natToBytes_digits (n : Nat) : ∀ b ∈ natToBytes n, isDigitByte b = true := by
  intro b hb
  unfold natToBytes at hb
  by_cases h0 : n = 0
  · simp [h0] at hb
    simp [hb, isDigitByte]
  · rw [if_neg h0] at hb
    simp only [List.mem_map, List.mem_reverse] at hb
    obtain ⟨d, hd, rfl⟩ := hb
    have := (natDigitsAux_spec n n le_rfl).2.1 d hd
    simp [isDigitByte]
    omega

theorem natToBytes_ne_nil (n : Nat) : natToBytes n ≠ [] := by
  unfold natToBytes
  by_cases h0 : n = 0
  · simp [h0]
  · rw [if_neg h0]
    have := (natDigitsAux_spec n n le_rfl).2.2 h0
    simpa [natDigits] using this

theorem parseNatBytes_natToBytes (n : Nat) : parseNatBytes (natToBytes n) = some n := by
  unfold parseNatBytes
  rw [if_pos]
  · congr 1
    unfold natToBytes
    by_cases h0 : n = 0
    · simp [h0, digitsVal]
    · rw [if_neg h0]
      exact (natDigitsAux_spec n n le_rfl).1
  · simp only [Bool.and_eq_true]
    constructor
    · simpa using natToBytes_ne_nil n
    · exact List.all_eq_true.mpr (natToBytes_digits n)

theorem intToBytes_bytes (i : Int) : ∀ b ∈ intToBytes i, b < 256 ∧ b ≠ PIPE := by
  intro b hb
  have hdig : ∀ m b, b ∈ natToBytes m → b < 256 ∧ b ≠ PIPE := by
    intro m b hb
    have := natToBytes_digits m b hb
    simp [isDigitByte] at this
    unfold PIPE
    omega
  unfold intToBytes at hb
  by_cases h : i < 0
  · rw [if_pos h] at hb
    rcases List.mem_cons.mp hb with rfl | hb2
    · exact ⟨by omega, by unfold PIPE; omega⟩
    · exact hdig _ _ hb2
  · rw [if_neg h] at hb
    exact hdig _ _ hb

theorem pyIntParse_intToBytes (i : Int) : pyIntParse (intToBytes i) = some i := by
  by_cases h : i < 0
  · rw [intToBytes, if_pos h]
    have hred : pyIntParse (45 :: natToBytes i.natAbs) =
        (parseNatBytes (natToBytes i.natAbs)).map (fun n : Nat => -(n : Int)) := by
      simp [pyIntParse]
    rw [hred, parseNatBytes_natToBytes]
    simp only [Option.map_some']
    congr 1
    omega
  · rw [intToBytes, if_neg h]
    cases hb : natToBytes i.toNat with
    | nil => exact absurd hb (natToBytes_ne_nil _)
    | cons b rest =>
      have hbd : isDigitByte b = true := by
        refine natToBytes_digits i.toNat b ?_
        rw [hb]; exact List.mem_cons_self b rest
      simp only [isDigitByte, Bool.and_eq_true, decide_eq_true_eq] at hbd
      have hred : pyIntParse (b :: rest) =
          (parseNatBytes (b :: rest)).map (fun n : Nat => (n : Int)) := by
        simp [pyIntParse, show b ≠ 45 by omega, show b ≠ 43 by omega]
      rw [hred, ← hb, parseNatBytes_natToBytes]
      simp only [Option.map_some']
      congr 1
      omega

/-! ### Lemmas: splitting on the delimiter -/

theorem splitOnPipe_nopipe {l : List Nat} (h : PIPE ∉ l) : splitOnPipe l = [l] := by
  induction l with
  | nil => rfl
  | cons b rest ih =>
    have hb : b ≠ PIPE := fun hc => h (by simp [hc])
    have hrest : PIPE ∉ rest := fun hc => h (by simp [hc])
    simp [splitOnPipe, hb, ih hrest]

theorem splitOnPipe_append {xs : List Nat} (ys : List Nat) (h : PIPE ∉ xs) :
    splitOnPipe (xs ++ PIPE :: ys) = xs :: splitOnPipe ys := by
  induction xs with
  | nil => simp [splitOnPipe]
  | cons b rest ih =>
    have hb : b ≠ PIPE := fun hc => h (by simp [hc])
    have hrest : PIPE ∉ rest := fun hc => h (by simp [hc])
    simp [splitOnPipe, hb, ih hrest]

/-! ### Lemmas: cursor round trip -/

theorem cursorPayload_bytes {pid : List Nat} (off seed : Int) (h1 : ∀ b ∈ pid, b < 256) :
    ∀ b ∈ pid ++ PIPE :: (intToBytes off ++ PIPE :: intToBytes seed), b < 256 := by
  intro b hb
  have hcases : b ∈ pid ∨ b = PIPE ∨ b ∈ intToBytes off ∨ b ∈ intToBytes seed := by
    simp only [List.mem_append, List.mem_cons] at hb
    tauto
  rcases hcases with hp | hp | hp | hp
  · exact h1 b hp
  · subst hp; unfold PIPE; omega
  · exact (intToBytes_bytes off b hp).1
  · exact (intToBytes_bytes seed b hp).1

theorem decode_encode_cursor {pid : List Nat} (off seed : Int)
    (h1 : ∀ b ∈ pid, b < 256) (h2 : PIPE ∉ pid) :
    decode_cursor (encode_cursor pid off seed) = some (pid, off, seed) := by
  have hOff : PIPE ∉ intToBytes off := fun hc => (intToBytes_bytes off PIPE hc).2 rfl
  have hSeed : PIPE ∉ intToBytes seed := fun hc => (intToBytes_bytes seed PIPE hc).2 rfl
  have hsplit : splitOnPipe (pid ++ PIPE :: (intToBytes off ++ PIPE :: intToBytes seed)) =
      [pid, intToBytes off, intToBytes seed] := by
    rw [splitOnPipe_append _ h2, splitOnPipe_append _ hOff, splitOnPipe_nopipe hSeed]
  simp only [encode_cursor, decode_cursor,
    b64Decode_b64Encode (cursorPayload_bytes off seed h1), hsplit,
    pyIntParse_intToBytes]

/-! ### Lemmas: the sort keys are total preorders -/

instance : IsTotal Scored candLE :=
  ⟨fun a b => by
    unfold candLE
    rcases lt_trichotomy a.combined b.combined with h | h | h
    · exact Or.inr (Or.inl h)
    · rcases idLeB_total a.prod.product_id b.prod.product_id with h2 | h2
      · exact Or.inl (Or.inr ⟨h, h2⟩)
      · exact Or.inr (Or.inr ⟨h.symm, h2⟩)
    · exact Or.inl (Or.inl h)⟩

instance : IsTrans Scored candLE :=
  ⟨fun a b c hab hbc => by
    unfold candLE at hab hbc ⊢
    rcases hab with hab | ⟨hab, hab2⟩
    · rcases hbc with hbc | ⟨hbc, _⟩
      · exact Or.inl (lt_trans hbc hab)
      · exact Or.inl (hbc ▸ hab)
    · rcases hbc with hbc | ⟨hbc, hbc2⟩
      · exact Or.inl (hab ▸ hbc)
      · exact Or.inr ⟨hab.trans hbc, idLeB_trans hab2 hbc2⟩⟩

instance : IsTotal (List Nat × ℚ) pairLE :=
  ⟨fun a b => by
    unfold pairLE
    rcases lt_trichotomy a.2 b.2 with h | h | h
    · exact Or.inr (Or.inl h)
    · rcases idLeB_total a.1 b.1 with h2 | h2
      · exact Or.inl (Or.inr ⟨h, h2⟩)
      · exact Or.inr (Or.inr ⟨h.symm, h2⟩)
    · exact Or.inl (Or.inl h)⟩

instance : IsTrans (List Nat × ℚ) pairLE :=
  ⟨fun a b c hab hbc => by
    unfold pairLE at hab hbc ⊢
    rcases hab with hab | ⟨hab, hab2⟩
    · rcases hbc with hbc | ⟨hbc, _⟩
      · exact Or.inl (lt_trans hbc hab)
      · exact Or.inl (hbc ▸ hab)
    · rcases hbc with hbc | ⟨hbc, hbc2⟩
      · exact Or.inl (hab ▸ hbc)
      · exact Or.inr ⟨hab.trans hbc, idLeB_trans hab2 hbc2⟩⟩

/-! ### Lemmas: Python slicing -/

theorem pySlice_nonneg {α : Type} (l : List α) (a : Int) (k : Nat) (ha : 0 ≤ a) :
    pySlice l a (a + (k : Int)) = (l.drop a.toNat).take k := by
  unfold pySlice pyIndexClamp
  rw [if_neg (by omega), if_neg (by omega), List.drop_take]
  by_cases hle : a.toNat ≤ l.length
  · have h1 : min a.toNat l.length = a.toNat := by omega
    have h2 : (a + (k : Int)).toNat = a.toNat + k := by omega
    rw [h1, h2]
    refine List.take_eq_take.mpr ?_
    rw [List.length_drop]
    omega
  · have h1 : min a.toNat l.length = l.length := by omega
    have hd1 : l.drop l.length = [] := by simp
    have hd2 : l.drop a.toNat = [] := List.drop_eq_nil_of_le (by omega)
    rw [h1, hd1, hd2]
    simp

theorem pySlice_length_le {α : Type} (l : List α) (a : Int) (k : Nat) (ha : 0 ≤ a) :
    (pySlice l a (a + (k : Int))).length ≤ k := by
  rw [pySlice_nonneg l a k ha]
  simp [List.length_take]

theorem pySlice_empty_of_ge {α : Type} (l : List α) (a : Int) (k : Nat) (ha : 0 ≤ a)
    (hge : (l.length : Int) ≤ a) : pySlice l a (a + (k : Int)) = [] := by
  rw [pySlice_nonneg l a k ha, List.drop_eq_nil_of_le (by omega)]
  simp

theorem pySlice_map {α β : Type} (f : α → β) (l : List α) (a b : Int) :
    pySlice (l.map f) a b = (pySlice l a b).map f := by
  unfold pySlice
  rw [List.length_map, List.map_drop, List.map_take]

theorem mem_of_mem_pySlice {α : Type} {l : List α} {a b : Int} {x : α}
    (h : x ∈ pySlice l a b) : x ∈ l := by
  unfold pySlice at h
  exact List.mem_of_mem_take (List.mem_of_mem_drop h)

/-! ### Lemmas: relating `recommend_for_product` to the unsliced ordering -/

theorem recommend_fst (r : Recommender) (pid : List Nat) (k : Nat) (alpha : ℚ)
    (off seed : Int) :
    (recommend_for_product r pid k alpha off seed).1 =
      pySlice (allEntries r pid alpha) off (off + (k : Int)) := by
  unfold recommend_for_product allEntries
  cases h : idToIdx r.catalog pid with
  | none =>
    simp only [popularFallback, pySlice_map]
  | some qIdx =>
    simp only [pySlice_map]

theorem recommend_snd (r : Recommender) (pid : List Nat) (k : Nat) (alpha : ℚ)
    (off seed : Int) :
    (recommend_for_product r pid k alpha off seed).2 = (allEntries r pid alpha).length := by
  unfold recommend_for_product allEntries
  cases h : idToIdx r.catalog pid with
  | none =>
    simp [List.length_insertionSort]
  | some qIdx =>
    simp

/-! ### Lemmas: page concatenation -/

theorem pages_concat {α : Type} (k : Nat) (hk : 1 ≤ k) :
    ∀ (m : Nat) (l : List α), l.length ≤ m * k →
      (((List.range m).map (fun i => (l.drop (i * k)).take k)).flatten = l) := by
  intro m
  induction m with
  | zero =>
    intro l hl
    have : l = [] := List.eq_nil_of_length_eq_zero (by simpa using hl)
    simp [this]
  | succ m ih =>
    intro l hl
    rw [List.range_succ_eq_map, List.map_cons, List.map_map, List.flatten_cons]
    have hshift : ((List.range m).map ((fun i => (l.drop (i * k)).take k) ∘ Nat.succ)) =
        (List.range m).map (fun i => ((l.drop k).drop (i * k)).take k) := by
      refine List.map_congr_left ?_
      intro i _
      simp only [Function.comp]
      rw [List.drop_drop, show k + i * k = i.succ * k by rw [Nat.succ_mul]; ring]
    rw [hshift, ih (l.drop k)
      (by rw [List.length_drop]
          have h2 : (m + 1) * k = m * k + k := by ring
          omega)]
    simpa using List.take_append_drop k l

/-! ### Lemmas: rounding stays in the unit interval -/

theorem ratFloor_eq_floor (q : ℚ) : ratFloor q = ⌊q⌋ := by
  unfold ratFloor
  exact Rat.floor_def.symm

theorem round3_mem_unit {q : ℚ} (h0 : 0 ≤ q) (h1 : q ≤ 1) :
    0 ≤ round3 q ∧ round3 q ≤ 1 := by
  unfold round3
  rw [ratFloor_eq_floor]
  have hfl : (0 : Int) ≤ ⌊q * 1000 + 1 / 2⌋ := by
    rw [Int.le_floor]
    push_cast
    linarith
  have hfu : ⌊q * 1000 + 1 / 2⌋ ≤ 1000 := by
    have hle : (↑⌊q * 1000 + 1 / 2⌋ : ℚ) ≤ q * 1000 + 1 / 2 := Int.floor_le _
    have hlt : (↑⌊q * 1000 + 1 / 2⌋ : ℚ) < 1001 := by linarith
    have h2 : ⌊q * 1000 + 1 / 2⌋ < 1001 := by exact_mod_cast hlt
    omega
  constructor
  · apply div_nonneg _ (by norm_num)
    exact_mod_cast hfl
  · rw [div_le_one (by norm_num)]
    exact_mod_cast hfu

/-! ### Lemmas: candidates, identifiers and strict ordering -/

theorem mem_of_mem_candidateProducts {cat : List Product} {qIdx : Nat} {p : Product}
    (h : p ∈ candidateProducts cat qIdx) : p ∈ cat := by
  unfold candidateProducts at h
  simp only [List.mem_map, List.mem_filter] at h
  obtain ⟨e, ⟨he, _⟩, rfl⟩ := h
  exact List.getElem?_mem (List.mem_enum_iff_getElem?.mp he)

theorem candidateProducts_ids_sublist (cat : List Product) (qIdx : Nat) :
    ((candidateProducts cat qIdx).map Product.product_id).Sublist
      (cat.map Product.product_id) := by
  unfold candidateProducts
  rw [List.map_map]
  have h2 := (List.filter_sublist (p := fun e : Nat × Product => e.1 ≠ qIdx) cat.enum).map
    (Product.product_id ∘ Prod.snd)
  have h3 : cat.enum.map (Product.product_id ∘ Prod.snd) = cat.map Product.product_id := by
    rw [← List.map_map, List.enum_map_snd]
  rw [h3] at h2
  exact h2

theorem pairwise_strict_of_sorted_nodup {l : List Scored}
    (hs : l.Pairwise candLE)
    (hn : (l.map (fun s => s.prod.product_id)).Nodup) :
    l.Pairwise (fun a b => b.combined < a.combined ∨
      (a.combined = b.combined ∧ idLtB a.prod.product_id b.prod.product_id = true)) := by
  have hne : l.Pairwise (fun a b => a.prod.product_id ≠ b.prod.product_id) :=
    List.pairwise_map.mp hn
  refine (hs.and hne).imp ?_
  rintro a b ⟨hle, hne2⟩
  rcases hle with h | ⟨heq, hid⟩
  · exact Or.inl h
  · exact Or.inr ⟨heq, idLtB_of_idLeB_ne hid hne2⟩

theorem pairwise_strict_pairs_of_sorted_nodup {l : List (List Nat × ℚ)}
    (hs : l.Pairwise pairLE) (hn : (l.map Prod.fst).Nodup) :
    l.Pairwise (fun a b => b.2 < a.2 ∨ (a.2 = b.2 ∧ idLtB a.1 b.1 = true)) := by
  have hne : l.Pairwise (fun a b => a.1 ≠ b.1) := List.pairwise_map.mp hn
  refine (hs.and hne).imp ?_
  rintro a b ⟨hle, hne2⟩
  rcases hle with h | ⟨heq, hid⟩
  · exact Or.inl h
  · exact Or.inr ⟨heq, idLtB_of_idLeB_ne hid hne2⟩

/-! ### Claim theorems -/

theorem view_ne_purchase : Event.view ≠ Event.purchase := by decide

theorem purchase_ne_view : Event.purchase ≠ Event.view := by decide

set_option maxHeartbeats 1000000 in
/-- C1: the claim (and the spec) demand that after fit every popularity
entry is a scalar in `[0, 1]`.  The code violates this: with catalog
`{A, B}` (bytes `[65]`, `[66]`) and interactions `purchase A`, `view A`,
`purchase B`, pandas index alignment of
`purchase_counts * 2.0 + view_counts * 1.0` gives item `B` (present only
in the purchase counts) a NaN total, which survives normalization and is
stored in the dict (the back-fill loop skips existing keys).  The model
evaluates `fit` at this input: `A` maps to `1` but `B` maps to `none`
(NaN), not to a scalar in `[0, 1]` — the spec formula would give `B` the
score `(2*1 + 0) / 3 = 2/3`. -/
theorem claim_C1_fit_popularity_nan :
    fitPopularity [[65], [66]]
        [⟨[65], Event.purchase⟩, ⟨[65], Event.view⟩, ⟨[66], Event.purchase⟩] =
      [([66], none), ([65], some 1)] ∧
    (fitPopularity [[65], [66]]
        [⟨[65], Event.purchase⟩, ⟨[65], Event.view⟩, ⟨[66], Event.purchase⟩]).find?
        (fun e => e.1 = [66]) = some ([66], none) := by
  have heq : fitPopularity [[65], [66]]
      [⟨[65], Event.purchase⟩, ⟨[65], Event.view⟩, ⟨[66], Event.purchase⟩] =
      [([66], none), ([65], some 1)] := by
    norm_num [fitPopularity, uniqueKeys, countOcc, List.filter_cons, List.filter_nil,
      view_ne_purchase, purchase_ne_view]
  refine ⟨heq, ?_⟩
  rw [heq]
  rfl

/-- C2 (counterexample): the claim states that `decode_cursor` applied to a
tampered or truncated token raises `InvalidCursor`.  False: truncating the
token for `("ab", 0, 12)` to its first 8 characters (a 4-character base64
boundary) decodes successfully — to the wrong triple `("ab", 0, 1)` — so a
truncated token need not raise. -/
theorem claim_C2_counterexample_truncated_token :
    decode_cursor ((encode_cursor [97, 98] 0 12).take 8) = some ([97, 98], 0, 1) := by
  rfl

/-- C2 (amended): `decode_cursor (encode_cursor id offset seed)` returns
exactly `(id, offset, seed)` for every identifier free of the `'|'`
delimiter byte; `decode_cursor` raises `InvalidCursor` on tokens that are
not a valid three-field encoding — for example the same token truncated to
9 characters — but not on every tampered or truncated token. -/
theorem claim_C2_cursor_roundtrip :
    (∀ (pid : List Nat) (off seed : Int), (∀ b ∈ pid, b < 256) → PIPE ∉ pid →
      decode_cursor (encode_cursor pid off seed) = some (pid, off, seed)) ∧
    decode_cursor ((encode_cursor [97, 98] 0 12).take 9) = none := by
  exact ⟨fun pid off seed h1 h2 => decode_encode_cursor off seed h1 h2, rfl⟩

/-- C2 (witness): the round trip evaluated at the concrete triple
`([97], 2, 3)`. -/
theorem claim_C2_witness :
    decode_cursor (encode_cursor [97] 2 3) = some ([97], 2, 3) :=
  claim_C2_cursor_roundtrip.1 [97] 2 3 (by decide) (by decide)

/-- C10: for the product identifier `"a|b"` (bytes `[97, 124, 98]`), which
contains the delimiter, `encode_cursor` succeeds (it performs no check on
the identifier, producing a non-empty token) but the decoded payload splits
into 4 fields, so `decode_cursor` raises the invalid-cursor error instead
of round-tripping. -/
theorem claim_C10_pipe_in_id_breaks_roundtrip :
    encode_cursor [97, 124, 98] 5 7 ≠ [] ∧
    (splitOnPipe ([97, 124, 98] ++ PIPE :: (intToBytes 5 ++ PIPE :: intToBytes 7))).length = 4 ∧
    decode_cursor (encode_cursor [97, 124, 98] 5 7) = none := by
  refine ⟨by decide, by rfl, by rfl⟩

set_option maxHeartbeats 1600000 in
/-- C9: the Explainer of the source (`_generate_reason`) coincides with the
specification text restated as `reasonSpec`: predicates evaluated in fixed
priority order, all firing labels joined with `" & "`, the two content
thresholds mutually exclusive, the two popularity thresholds mutually
exclusive, and the fallback labels `"low content similarity"` (positive
similarity) / `"popular fallback"` (otherwise) when nothing fires. -/
theorem claim_C9_explainer_refines_spec (content_sim popularity : ℚ) (q c : Product) :
    generateReason content_sim popularity q c = reasonSpec content_sim popularity q c := by
  by_cases h1 : content_sim ≥ 6 / 10 <;> by_cases h2 : content_sim ≥ 3 / 10 <;>
    by_cases h3 : q.brand = c.brand <;> by_cases h4 : q.category = c.category <;>
    by_cases h5 : popularity ≥ 7 / 10 <;> by_cases h6 : popularity ≥ 4 / 10 <;>
    by_cases h7 : content_sim > 0 <;>
    simp [generateReason, reasonSpec, joinAmp, h1, h2, h3, h4, h5, h6, h7]

/-- C3: for a query item present in the catalog the computed ranking is a
permutation of all candidates (catalog minus the query row, each scored
with `alpha`), it is strictly ordered by combined score descending with
ties broken by identifier ascending (given pairwise-distinct catalog
identifiers), and the `seed` argument has no influence on the result of
`recommend_for_product`. -/
theorem claim_C3_strict_order_seed_free (r : Recommender) (pid : List Nat) (qIdx : Nat)
    (alpha : ℚ)
    (hq : idToIdx r.catalog pid = some qIdx)
    (hnodup : (r.catalog.map Product.product_id).Nodup) :
    (rankedCandidates r qIdx alpha).Perm
      ((candidateProducts r.catalog qIdx).map
        (mkScored r (r.catalog.getD qIdx default) alpha)) ∧
    (rankedCandidates r qIdx alpha).Pairwise (fun a b =>
      b.combined < a.combined ∨
        (a.combined = b.combined ∧ idLtB a.prod.product_id b.prod.product_id = true)) ∧
    (∀ (k : Nat) (off seed1 seed2 : Int),
      recommend_for_product r pid k alpha off seed1 =
        recommend_for_product r pid k alpha off seed2) := by
  have hperm : (rankedCandidates r qIdx alpha).Perm
      ((candidateProducts r.catalog qIdx).map
        (mkScored r (r.catalog.getD qIdx default) alpha)) := by
    unfold rankedCandidates
    exact List.perm_insertionSort _ _
  refine ⟨hperm, ?_, fun k off s1 s2 => rfl⟩
  have hsorted : (rankedCandidates r qIdx alpha).Pairwise candLE := by
    unfold rankedCandidates
    exact List.sorted_insertionSort _ _
  apply pairwise_strict_of_sorted_nodup hsorted
  have hnd1 : ((candidateProducts r.catalog qIdx).map Product.product_id).Nodup :=
    List.Nodup.sublist (candidateProducts_ids_sublist r.catalog qIdx) hnodup
  have hids : (((candidateProducts r.catalog qIdx).map
      (mkScored r (r.catalog.getD qIdx default) alpha)).map (fun s => s.prod.product_id))
      = (candidateProducts r.catalog qIdx).map Product.product_id := by
    rw [List.map_map]
    rfl
  have hpermids := hperm.map (fun s => s.prod.product_id)
  rw [hids] at hpermids
  exact hpermids.nodup_iff.mpr hnd1

/-- C4: for a query identifier absent from the catalog,
`recommend_for_product` returns (it does not raise) the popularity-only
fallback over the entire catalog together with `total_available` equal to
the full catalog size; the fallback ranking is a permutation of the whole
catalog paired with its popularity scores, strictly ordered by popularity
descending then identifier ascending (given distinct identifiers); and
every returned entry carries the fixed reason `"popular fallback"`. -/
theorem claim_C4_popular_fallback (r : Recommender) (pid : List Nat) (k : Nat) (alpha : ℚ)
    (off seed : Int)
    (habs : idToIdx r.catalog pid = none)
    (hnodup : (r.catalog.map Product.product_id).Nodup) :
    recommend_for_product r pid k alpha off seed = (popularFallback r k off, r.catalog.length) ∧
    (List.insertionSort pairLE
        (r.catalog.map (fun p => (p.product_id, popGet r.popularity p.product_id)))).Perm
      (r.catalog.map (fun p => (p.product_id, popGet r.popularity p.product_id))) ∧
    (List.insertionSort pairLE
        (r.catalog.map (fun p => (p.product_id, popGet r.popularity p.product_id)))).Pairwise
      (fun a b => b.2 < a.2 ∨ (a.2 = b.2 ∧ idLtB a.1 b.1 = true)) ∧
    (∀ e ∈ (recommend_for_product r pid k alpha off seed).1, e.reason = "popular fallback") ∧
    (recommend_for_product r pid k alpha off seed).2 = r.catalog.length := by
  have hbranch : recommend_for_product r pid k alpha off seed =
      (popularFallback r k off, r.catalog.length) := by
    unfold recommend_for_product
    rw [habs]
  refine ⟨hbranch, List.perm_insertionSort _ _, ?_, ?_, by rw [hbranch]⟩
  · apply pairwise_strict_pairs_of_sorted_nodup (List.sorted_insertionSort _ _)
    have hperm := (List.perm_insertionSort pairLE
      (r.catalog.map (fun p => (p.product_id, popGet r.popularity p.product_id)))).map Prod.fst
    have hids : ((r.catalog.map
        (fun p => (p.product_id, popGet r.popularity p.product_id))).map Prod.fst)
        = r.catalog.map Product.product_id := by
      rw [List.map_map]
      rfl
    rw [hids] at hperm
    exact hperm.nodup_iff.mpr hnodup
  · intro e he
    rw [hbranch] at he
    simp only [popularFallback, List.mem_map] at he
    obtain ⟨x, hx, rfl⟩ := he
    rfl

/-- C5: for a valid request on an item present in the catalog (offset
nonnegative, `alpha` in `[0, 1]`, content similarities and popularity
scores in `[0, 1]`), the returned page has at most `k` entries, and every
returned entry comes from a ranked candidate whose combined score equals
`alpha * contentSim + (1 - alpha) * popularity` exactly and lies in
`[0, 1]`; the entry's presented score is its 3-digit rounding and also lies
in `[0, 1]`. -/
theorem claim_C5_page_shape_and_scores (r : Recommender) (pid : List Nat) (qIdx : Nat)
    (k : Nat) (alpha : ℚ) (off seed : Int)
    (hq : idToIdx r.catalog pid = some qIdx)
    (hoff : 0 ≤ off)
    (ha0 : 0 ≤ alpha) (ha1 : alpha ≤ 1)
    (hsim : ∀ p ∈ r.catalog,
      0 ≤ dot (r.catalog.getD qIdx default).vector p.vector ∧
        dot (r.catalog.getD qIdx default).vector p.vector ≤ 1)
    (hpop : ∀ p ∈ r.catalog,
      0 ≤ popGet r.popularity p.product_id ∧ popGet r.popularity p.product_id ≤ 1) :
    (recommend_for_product r pid k alpha off seed).1.length ≤ k ∧
    ∀ e ∈ (recommend_for_product r pid k alpha off seed).1,
      ∃ sc ∈ rankedCandidates r qIdx alpha,
        sc.combined = alpha * sc.sim + (1 - alpha) * sc.pop ∧
        e.score = round3 sc.combined ∧
        0 ≤ sc.combined ∧ sc.combined ≤ 1 ∧ 0 ≤ e.score ∧ e.score ≤ 1 := by
  have hfst : (recommend_for_product r pid k alpha off seed).1 =
      (pySlice (rankedCandidates r qIdx alpha) off (off + (k : Int))).map
        (toEntry r (r.catalog.getD qIdx default)) := by
    unfold recommend_for_product
    rw [hq]
  constructor
  · rw [hfst, List.length_map]
    exact pySlice_length_le _ _ _ hoff
  · intro e he
    rw [hfst] at he
    simp only [List.mem_map] at he
    obtain ⟨sc, hsc, rfl⟩ := he
    have hscr : sc ∈ rankedCandidates r qIdx alpha := mem_of_mem_pySlice hsc
    refine ⟨sc, hscr, ?_⟩
    have hperm : (rankedCandidates r qIdx alpha).Perm
        ((candidateProducts r.catalog qIdx).map
          (mkScored r (r.catalog.getD qIdx default) alpha)) := by
      unfold rankedCandidates
      exact List.perm_insertionSort _ _
    have hmem := hperm.mem_iff.mp hscr
    simp only [List.mem_map] at hmem
    obtain ⟨p, hp, rfl⟩ := hmem
    have hpc : p ∈ r.catalog := mem_of_mem_candidateProducts hp
    obtain ⟨hs0, hs1⟩ := hsim p hpc
    obtain ⟨hpp0, hpp1⟩ := hpop p hpc
    have hc0 : 0 ≤ (mkScored r (r.catalog.getD qIdx default) alpha p).combined := by
      show 0 ≤ alpha * dot (r.catalog.getD qIdx default).vector p.vector +
        (1 - alpha) * popGet r.popularity p.product_id
      nlinarith
    have hc1 : (mkScored r (r.catalog.getD qIdx default) alpha p).combined ≤ 1 := by
      show alpha * dot (r.catalog.getD qIdx default).vector p.vector +
        (1 - alpha) * popGet r.popularity p.product_id ≤ 1
      nlinarith
    obtain ⟨hr0, hr1⟩ := round3_mem_unit hc0 hc1
    exact ⟨rfl, rfl, hc0, hc1, hr0, hr1⟩

/-- C6: for a fixed query, `alpha` and `seed`, concatenating the pages
returned at offsets `0, k, 2k, ...` (any number of pages whose combined
capacity `m * k` covers `total_available`) reproduces exactly the full
ranked list `allEntries` — in particular with no duplicate and no missing
entry. -/
theorem claim_C6_pagination_consistency (r : Recommender) (pid : List Nat) (k : Nat)
    (alpha : ℚ) (seed : Int) (m : Nat) (hk : 1 ≤ k)
    (hm : (recommend_for_product r pid k alpha 0 seed).2 ≤ m * k) :
    ((List.range m).map (fun i =>
        (recommend_for_product r pid k alpha ((i * k : Nat) : Int) seed).1)).flatten =
      allEntries r pid alpha := by
  rw [recommend_snd] at hm
  have hpage : ∀ i ∈ List.range m,
      (recommend_for_product r pid k alpha ((i * k : Nat) : Int) seed).1 =
        ((allEntries r pid alpha).drop (i * k)).take k := by
    intro i _
    rw [recommend_fst, pySlice_nonneg _ _ _ (Int.natCast_nonneg _), Int.toNat_natCast]
  rw [List.map_congr_left hpage]
  exact pages_concat k hk m _ hm

/-- C7: with a valid cursor for an item present in the catalog, the
`/recommend` handler returns a 200-style result whose `next_cursor` is
present if and only if `offset + k < total_available`; when present, the
next cursor decodes to `(product_id, offset + k, seed)`; and when
`offset ≥ total_available` the result is an empty item list with no next
cursor, not an error. -/
theorem claim_C7_next_cursor (r : Recommender) (pid : List Nat) (k : Nat) (alpha : ℚ)
    (off seed : Int)
    (hbytes : ∀ b ∈ pid, b < 256) (hnopipe : PIPE ∉ pid)
    (hoff : 0 ≤ off)
    (hmem : (r.catalog.all (fun p => p.product_id ≠ pid)) = false) :
    recommendHandler r pid k alpha (some (encode_cursor pid off seed)) =
      ApiResponse.ok off (allEntries r pid alpha).length
        (pySlice (allEntries r pid alpha) off (off + (k : Int)))
        (if off + (k : Int) < ((allEntries r pid alpha).length : Int) then
          some (encode_cursor pid (off + (k : Int)) seed) else none) ∧
    ((if off + (k : Int) < ((allEntries r pid alpha).length : Int) then
        some (encode_cursor pid (off + (k : Int)) seed) else none).isSome ↔
      off + (k : Int) < ((allEntries r pid alpha).length : Int)) ∧
    (∀ tok,
      (if off + (k : Int) < ((allEntries r pid alpha).length : Int) then
        some (encode_cursor pid (off + (k : Int)) seed) else none) = some tok →
      decode_cursor tok = some (pid, off + (k : Int), seed)) ∧
    (((allEntries r pid alpha).length : Int) ≤ off →
      pySlice (allEntries r pid alpha) off (off + (k : Int)) = [] ∧
      (if off + (k : Int) < ((allEntries r pid alpha).length : Int) then
        some (encode_cursor pid (off + (k : Int)) seed) else none) = none) := by
  have hdec := decode_encode_cursor off seed hbytes hnopipe
  refine ⟨?_, ?_, ?_, ?_⟩
  · simp only [recommendHandler, hdec, hmem, recommend_fst, recommend_snd]
    simp
  · by_cases hlt : off + (k : Int) < ((allEntries r pid alpha).length : Int) <;>
      simp [hlt]
  · intro tok htok
    by_cases hlt : off + (k : Int) < ((allEntries r pid alpha).length : Int)
    · rw [if_pos hlt] at htok
      have htok2 : encode_cursor pid (off + (k : Int)) seed = tok := by
        injection htok
      rw [← htok2]
      exact decode_encode_cursor _ _ hbytes hnopipe
    · rw [if_neg hlt] at htok
      exact absurd htok (by simp)
  · intro hge
    refine ⟨pySlice_empty_of_ge _ _ _ hoff hge, ?_⟩
    rw [if_neg (by omega)]

theorem allEntries_length_le (r : Recommender) (pid : List Nat) (alpha : ℚ) :
    (allEntries r pid alpha).length ≤ r.catalog.length := by
  unfold allEntries
  cases h : idToIdx r.catalog pid with
  | none =>
    simp [List.length_insertionSort]
  | some qIdx =>
    simp only [List.length_map, rankedCandidates, List.length_insertionSort]
    unfold candidateProducts
    rw [List.length_map]
    exact le_trans (List.length_filter_le _ _) (by rw [List.enum_length])

/-- C3 (witness): seed independence of the theorem instantiated on the
sample state, query `A`, seeds 0 and 5. -/
theorem claim_C3_witness :
    recommend_for_product sampleRec [65] 1 (6 / 10) 0 0 =
      recommend_for_product sampleRec [65] 1 (6 / 10) 0 5 :=
  (claim_C3_strict_order_seed_free sampleRec [65] 0 (6 / 10) (by decide)
    (by decide)).2.2 1 0 0 5

/-- C4 (witness): the fallback branch of the theorem instantiated on the
sample state with the unknown identifier `Z` (byte 90). -/
theorem claim_C4_witness :
    recommend_for_product sampleRec [90] 1 (6 / 10) 0 0 =
      (popularFallback sampleRec 1 0, sampleRec.catalog.length) :=
  (claim_C4_popular_fallback sampleRec [90] 1 (6 / 10) 0 0 (by decide) (by decide)).1

/-- C5 (witness): the page-length bound of the theorem instantiated on the
sample state, query `A`, `k = 1`. -/
theorem claim_C5_witness :
    (recommend_for_product sampleRec [65] 1 (6 / 10) 0 0).1.length ≤ 1 :=
  (claim_C5_page_shape_and_scores sampleRec [65] 0 1 (6 / 10) 0 0 (by decide) (by norm_num)
    (by norm_num) (by norm_num)
    (by
      intro p hp
      fin_cases hp <;> norm_num [sampleRec, sampleA, sampleB, dot])
    (by
      intro p hp
      fin_cases hp <;> norm_num [sampleRec, sampleA, sampleB, popGet])).1

/-- C6 (witness): page concatenation on the sample state, query `A`,
`k = 1`, two pages. -/
theorem claim_C6_witness :
    ((List.range 2).map (fun i =>
        (recommend_for_product sampleRec [65] 1 (6 / 10) ((i * 1 : Nat) : Int) 0).1)).flatten =
      allEntries sampleRec [65] (6 / 10) :=
  claim_C6_pagination_consistency sampleRec [65] 1 (6 / 10) 0 2 (by norm_num)
    (by
      rw [recommend_snd]
      refine le_trans (allEntries_length_le sampleRec [65] (6 / 10)) ?_
      norm_num [sampleRec])

/-- C7 (witness): the handler equation of the theorem instantiated on the
sample state with the cursor `encode_cursor [65] 1 0`. -/
theorem claim_C7_witness :
    recommendHandler sampleRec [65] 1 (6 / 10) (some (encode_cursor [65] 1 0)) =
      ApiResponse.ok 1 (allEntries sampleRec [65] (6 / 10)).length
        (pySlice (allEntries sampleRec [65] (6 / 10)) 1 (1 + (1 : Int)))
        (if 1 + (1 : Int) < ((allEntries sampleRec [65] (6 / 10)).length : Int) then
          some (encode_cursor [65] (1 + (1 : Int)) 0) else none) :=
  (claim_C7_next_cursor sampleRec [65] 1 (6 / 10) 1 0 (by decide) (by decide) (by norm_num)
    (by decide)).1
